import Mathlib

set_option maxRecDepth 4000

/-!
Verification of the `srx` segmentation library (SRX 2.0 text segmentation).

The development shallowly embeds the library's core: the rule data model,
the segmentation algorithm (`Rules::split_ranges` / `Rules::split` from
`src/lib.rs`), language resolution (`SRX::language_rules`), and the engine
construction from a raw rule table (`TryFrom<schema::SRX>` in
`src/from_xml.rs`, with `utils::full_regex`).

Texts are modelled as `List Char`; byte offsets are `Nat`s computed from the
UTF-8 width of each character (`charSize`, mirroring Rust's
`char::len_utf8`).  The external `regex` crate is modelled abstractly: a
compiled `Regex` is a pair of a search procedure on strings
(`Regex::is_match`) and the list of start byte offsets of capture group 1
over `captures_iter` (this is exactly what `Rule::match_indices` consumes
after its `filter_map`); regex compilation `Regex::new` is an abstract
function `compile : String → Except String Regex` passed explicitly where
the source calls it.  Facts the source inherits from the regex engine
(candidate offsets are produced scanning left to right, hence
non-decreasing) appear as explicit hypotheses of the theorems that need
them.
-/

namespace Srx

/-- UTF-8 byte width of a character, mirroring Rust `char::len_utf8`. -/
def charSize (c : Char) : Nat :=
  if c.toNat < 128 then 1 else if c.toNat < 2048 then 2 else if c.toNat < 65536 then 3 else 4

/-- A text is a sequence of Unicode scalar values, as in Rust `&str`. -/
abbrev Text := List Char

/-- Byte length of a text (`str::len`). -/
def utf8Len (text : Text) : Nat := (text.map charSize).sum

/-- Abstract model of a compiled `regex::Regex`:
`isMatch` is `Regex::is_match` (substring search), and `captureStarts text`
is the sequence of start byte offsets of capture group 1 produced by
`captures_iter(text).filter_map(|x| x.get(1).map(|x| x.start()))`. -/
structure Regex where
  isMatch : String → Bool
  captureStarts : Text → List Nat

/-- Newtype denoting a language (struct `Language` in `src/lib.rs`). -/
structure Language where
  name : String
deriving DecidableEq, Repr

/-- A single SRX rule (struct `Rule` in `src/lib.rs`): one fused regex of the
form `before_break(after_break)` plus a break/no-break flag. -/
structure Rule where
  regex : Regex
  do_break : Bool

/-- Byte indices at which a rule matches (`Rule::match_indices`): the start
of the first capture group of every match of the fused regex. -/
def Rule.match_indices (r : Rule) (text : Text) : List Nat :=
  r.regex.captureStarts text

/-- An ordered set of rules (struct `Rules` in `src/lib.rs`). -/
structure Rules where
  rules : List Rule

/-- Inner candidate loop of `Rules::split_ranges` for one rule: for each
candidate byte index in order, if the index is at or past the end of the
text the source does `continue 'outer` (abandoning the remaining candidates
of this rule and moving to the next rule); otherwise the tri-state mask at
that index is set to the rule's `do_break` if still undecided. -/
def applyRule (len : Nat) (doBreak : Bool) : List Nat → List (Option Bool) → List (Option Bool)
  | [], mask => mask
  | i :: rest, mask =>
    if len ≤ i then mask
    else applyRule len doBreak rest
      (if (mask.getD i none).isNone then mask.set i (some doBreak) else mask)

/-- The decision mask built by the first phase of `Rules::split_ranges`:
a per-byte tri-state array (`Vec<Option<bool>>` of length `text.len()`),
filled by the rules in declaration order. -/
def computeMask (rules : List Rule) (text : Text) : List (Option Bool) :=
  rules.foldl
    (fun mask r => applyRule (utf8Len text) r.do_break (r.match_indices text) mask)
    (List.replicate (utf8Len text) none)

/-- Character-boundary walk of `Rules::split_ranges` (the `char_indices`
loop): emits a range at every character start whose mask entry is
`Some(true)`, and returns the final `prev_byte_pos` along with the emitted
ranges.  `pos` is the byte index of the head of the remaining text. -/
def walkLoop (mask : List (Option Bool)) : Text → Nat → Nat → List (Nat × Nat) × Nat
  | [], _, prev => ([], prev)
  | c :: cs, pos, prev =>
    if mask.getD pos none = some true then
      let r := walkLoop mask cs (pos + charSize c) pos
      ((prev, pos) :: r.1, r.2)
    else walkLoop mask cs (pos + charSize c) prev

/-- `Rules::split_ranges`: decision mask, boundary walk, then the trailing
segment.  The source's trailing test `text[prev_byte_pos..].chars().next().is_some()`
is equivalent to `prev_byte_pos < text.len()` because `prev_byte_pos` is
always a character boundary. -/
def Rules.split_ranges (rs : Rules) (text : Text) : List (Nat × Nat) :=
  let mask := computeMask rs.rules text
  let w := walkLoop mask text 0 0
  if w.2 < utf8Len text then w.1 ++ [(w.2, utf8Len text)] else w.1

/-- Chars of `text` whose start byte offset lies in `[a, b)`, scanning from
byte position `pos`.  For `a`, `b` on character boundaries this is exactly
the slice `&text[a..b]` of the source (which would panic off a boundary;
the ranges emitted by `split_ranges` are proved to be on boundaries). -/
def sliceFrom (a b : Nat) : Text → Nat → Text
  | [], _ => []
  | c :: cs, pos =>
    if a ≤ pos ∧ pos < b then c :: sliceFrom a b cs (pos + charSize c)
    else sliceFrom a b cs (pos + charSize c)

/-- Byte-range slice of a text (`&text[range]`). -/
def byteSlice (text : Text) (r : Nat × Nat) : Text := sliceFrom r.1 r.2 text 0

/-- `Rules::split`: materialize the ranges of `split_ranges` as slices. -/
def Rules.split (rs : Rules) (text : Text) : List Text :=
  (rs.split_ranges text).map (byteSlice text)

/-- Start byte offsets of the characters of a text from byte position `pos`
(`str::char_indices`, keeping only the offsets). -/
def charStarts : Text → Nat → List Nat
  | [], _ => []
  | c :: cs, pos => pos :: charStarts cs (pos + charSize c)

/-- A byte offset is a character boundary of `text` when it is the byte
length of `text` or the start offset of one of its characters (this is
Rust `str::is_char_boundary`; offset `0` is covered by both shapes). -/
def isCharBoundary (text : Text) (i : Nat) : Prop :=
  i = utf8Len text ∨ i ∈ charStarts text 0

instance instDecIsCharBoundary (text : Text) (i : Nat) : Decidable (isCharBoundary text i) := by
  unfold isCharBoundary
  infer_instance

/-- Byte offsets at which the mask decides a break, among character starts
of the remaining text, scanning from byte position `pos`.  This is the set
of positions at which the walk of `split_ranges` cuts. -/
def breakPositions (mask : List (Option Bool)) : Text → Nat → List Nat
  | [], _ => []
  | c :: cs, pos =>
    if mask.getD pos none = some true then pos :: breakPositions mask cs (pos + charSize c)
    else breakPositions mask cs (pos + charSize c)

/-- Consecutive pairs of a list of cut points. -/
def pairs : List Nat → List (Nat × Nat)
  | [] => []
  | [_] => []
  | a :: b :: rest => (a, b) :: pairs (b :: rest)

/-- Last element of a list, with a default (`foldl` form, for easy `rfl`). -/
def lastD (l : List Nat) (d : Nat) : Nat := l.foldl (fun _ x => x) d

theorem charSize_pos (c : Char) : 0 < charSize c := by
  unfold charSize
  split_ifs <;> omega

theorem utf8Len_nil : utf8Len [] = 0 := rfl

theorem utf8Len_cons (c : Char) (cs : Text) : utf8Len (c :: cs) = charSize c + utf8Len cs := by
  simp [utf8Len]

theorem utf8Len_pos (text : Text) (h : text ≠ []) : 0 < utf8Len text := by
  cases text with
  | nil => exact absurd rfl h
  | cons c cs =>
    have := charSize_pos c
    rw [utf8Len_cons]
    omega

theorem lastD_nil (d : Nat) : lastD [] d = d := rfl

theorem lastD_cons (x : Nat) (l : List Nat) (d : Nat) : lastD (x :: l) d = lastD l x := rfl

theorem lastD_mem (l : List Nat) (d : Nat) (h : l ≠ []) : lastD l d ∈ l := by
  induction l generalizing d with
  | nil => exact absurd rfl h
  | cons x xs ih =>
    rw [lastD_cons]
    cases xs with
    | nil => simp [lastD]
    | cons y ys => exact List.mem_cons_of_mem x (ih y (by simp))

theorem pairs_cons_cons (a b : Nat) (rest : List Nat) :
    pairs (a :: b :: rest) = (a, b) :: pairs (b :: rest) := rfl

theorem pairs_mem (l : List Nat) (p : Nat × Nat) (hp : p ∈ pairs l) : p.1 ∈ l ∧ p.2 ∈ l := by
  induction l with
  | nil => simp [pairs] at hp
  | cons a rest ih =>
    cases rest with
    | nil => simp [pairs] at hp
    | cons b rest2 =>
      rw [pairs_cons_cons] at hp
      rcases List.mem_cons.mp hp with h | h
      · subst h
        exact ⟨List.mem_cons_self _ _, List.mem_cons_of_mem _ (List.mem_cons_self _ _)⟩
      · have := ih h
        exact ⟨List.mem_cons_of_mem _ this.1, List.mem_cons_of_mem _ this.2⟩

theorem pairs_lt (l : List Nat) (hl : List.Pairwise (· < ·) l)
    (p : Nat × Nat) (hp : p ∈ pairs l) : p.1 < p.2 := by
  induction l with
  | nil => simp [pairs] at hp
  | cons a rest ih =>
    cases rest with
    | nil => simp [pairs] at hp
    | cons b rest2 =>
      rw [pairs_cons_cons] at hp
      rcases List.mem_cons.mp hp with h | h
      · subst h
        exact (List.pairwise_cons.mp hl).1 b (List.mem_cons_self _ _)
      · exact ih (List.pairwise_cons.mp hl).2 h

theorem sliceFrom_nil_of_le (a b : Nat) (cs : Text) (pos : Nat) (h : b ≤ pos) :
    sliceFrom a b cs pos = [] := by
  induction cs generalizing pos with
  | nil => rfl
  | cons c cs ih =>
    rw [sliceFrom, if_neg (by omega)]
    exact ih (pos + charSize c) (by omega)

theorem sliceFrom_full (a b : Nat) (cs : Text) (pos : Nat)
    (h1 : a ≤ pos) (h2 : pos + utf8Len cs ≤ b) : sliceFrom a b cs pos = cs := by
  induction cs generalizing pos with
  | nil => rfl
  | cons c cs ih =>
    rw [utf8Len_cons] at h2
    have hc := charSize_pos c
    rw [sliceFrom, if_pos (by constructor <;> omega)]
    rw [ih (pos + charSize c) (by omega) (by omega)]

theorem sliceFrom_glue (a b1 b2 : Nat) (cs : Text) (pos : Nat)
    (hab : a ≤ b1) (hbb : b1 ≤ b2) :
    sliceFrom a b1 cs pos ++ sliceFrom b1 b2 cs pos = sliceFrom a b2 cs pos := by
  induction cs generalizing pos with
  | nil => rfl
  | cons c cs ih =>
    simp only [sliceFrom]
    by_cases h1 : a ≤ pos ∧ pos < b1
    · rw [if_pos h1, if_neg (by omega), if_pos (show a ≤ pos ∧ pos < b2 by omega),
        List.cons_append, ih]
    · by_cases hlo : pos < a
      · rw [if_neg (by omega), if_neg (by omega), if_neg (by omega), ih]
      · -- here b1 ≤ pos
        have hb1 : b1 ≤ pos := by omega
        by_cases h2 : pos < b2
        · rw [if_neg (by omega), if_pos (show b1 ≤ pos ∧ pos < b2 by omega),
            if_pos (show a ≤ pos ∧ pos < b2 by omega)]
          have hnil := sliceFrom_nil_of_le a b1 cs (pos + charSize c) (by omega)
          have := ih (pos + charSize c)
          rw [hnil, List.nil_append] at this
          rw [hnil, List.nil_append, this]
        · rw [if_neg (by omega), if_neg (by omega), if_neg (by omega), ih]

theorem byteSlice_glue (text : Text) (a b1 b2 : Nat) (hab : a ≤ b1) (hbb : b1 ≤ b2) :
    byteSlice text (a, b1) ++ byteSlice text (b1, b2) = byteSlice text (a, b2) :=
  sliceFrom_glue a b1 b2 text 0 hab hbb

theorem byteSlice_all (text : Text) : byteSlice text (0, utf8Len text) = text :=
  sliceFrom_full 0 (utf8Len text) text 0 (Nat.le_refl 0) (by omega)

theorem walkLoop_eq (mask : List (Option Bool)) (cs : Text) (pos prev : Nat) :
    walkLoop mask cs pos prev =
      (pairs (prev :: breakPositions mask cs pos), lastD (breakPositions mask cs pos) prev) := by
  induction cs generalizing pos prev with
  | nil => rfl
  | cons c cs ih =>
    by_cases h : mask.getD pos none = some true
    · rw [walkLoop, if_pos h, breakPositions, if_pos h, ih, pairs_cons_cons, lastD_cons]
    · rw [walkLoop, if_neg h, breakPositions, if_neg h, ih]

theorem breakPositions_bounds (mask : List (Option Bool)) (cs : Text) (pos : Nat)
    (x : Nat) (hx : x ∈ breakPositions mask cs pos) : pos ≤ x ∧ x < pos + utf8Len cs := by
  induction cs generalizing pos with
  | nil => simp [breakPositions] at hx
  | cons c cs ih =>
    have hc := charSize_pos c
    rw [utf8Len_cons]
    rw [breakPositions] at hx
    by_cases h : mask.getD pos none = some true
    · rw [if_pos h] at hx
      rcases List.mem_cons.mp hx with h2 | h2
      · omega
      · have := ih (pos + charSize c) h2
        omega
    · rw [if_neg h] at hx
      have := ih (pos + charSize c) hx
      omega

theorem breakPositions_sorted (mask : List (Option Bool)) (cs : Text) (pos : Nat) :
    List.Pairwise (· < ·) (breakPositions mask cs pos) := by
  induction cs generalizing pos with
  | nil => exact List.Pairwise.nil
  | cons c cs ih =>
    have hc := charSize_pos c
    rw [breakPositions]
    by_cases h : mask.getD pos none = some true
    · rw [if_pos h]
      refine List.pairwise_cons.mpr ⟨?_, ih (pos + charSize c)⟩
      intro x hx
      have := breakPositions_bounds mask cs (pos + charSize c) x hx
      omega
    · rw [if_neg h]
      exact ih (pos + charSize c)

theorem breakPositions_sub_starts (mask : List (Option Bool)) (cs : Text) (pos : Nat)
    (x : Nat) (hx : x ∈ breakPositions mask cs pos) : x ∈ charStarts cs pos := by
  induction cs generalizing pos with
  | nil => simp [breakPositions] at hx
  | cons c cs ih =>
    rw [breakPositions] at hx
    rw [charStarts]
    by_cases h : mask.getD pos none = some true
    · rw [if_pos h] at hx
      rcases List.mem_cons.mp hx with h2 | h2
      · exact h2 ▸ List.mem_cons_self _ _
      · exact List.mem_cons_of_mem _ (ih (pos + charSize c) h2)
    · rw [if_neg h] at hx
      exact List.mem_cons_of_mem _ (ih (pos + charSize c) hx)

theorem pairs_join (text : Text) (B : Nat) (xs : List Nat) (x : Nat)
    (hsort : List.Pairwise (· ≤ ·) (x :: xs)) (hB : ∀ y ∈ x :: xs, y ≤ B) :
    ((pairs (x :: xs) ++ [(lastD xs x, B)]).map (byteSlice text)).flatten
      = byteSlice text (x, B) := by
  induction xs generalizing x with
  | nil =>
    simp [pairs, lastD]
  | cons y ys ih =>
    rw [pairs_cons_cons, lastD_cons]
    have hxy : x ≤ y := (List.pairwise_cons.mp hsort).1 y (List.mem_cons_self _ _)
    have hyB : y ≤ B := hB y (List.mem_cons_of_mem _ (List.mem_cons_self _ _))
    have ihy := ih y (List.pairwise_cons.mp hsort).2
      (fun z hz => hB z (List.mem_cons_of_mem _ hz))
    rw [List.cons_append, List.map_cons, List.flatten_cons, ihy]
    exact byteSlice_glue text x y B hxy hyB

theorem split_ranges_eq (rs : Rules) (text : Text) :
    rs.split_ranges text =
      (if lastD (breakPositions (computeMask rs.rules text) text 0) 0 < utf8Len text then
        pairs (0 :: breakPositions (computeMask rs.rules text) text 0)
          ++ [(lastD (breakPositions (computeMask rs.rules text) text 0) 0, utf8Len text)]
      else pairs (0 :: breakPositions (computeMask rs.rules text) text 0)) := by
  simp only [Rules.split_ranges]
  rw [walkLoop_eq]

theorem lastD_lt (l : List Nat) (d len : Nat) (hd : d < len) (h : ∀ x ∈ l, x < len) :
    lastD l d < len := by
  rcases l with _ | ⟨b, bs2⟩
  · simpa [lastD] using hd
  · exact h _ (lastD_mem _ d (by simp))

theorem lastD_mem_cons (l : List Nat) (d : Nat) : lastD l d ∈ d :: l := by
  rcases l with _ | ⟨b, bs2⟩
  · simp [lastD]
  · exact List.mem_cons_of_mem _ (lastD_mem _ d (by simp))

theorem zero_boundary (text : Text) : isCharBoundary text 0 := by
  cases text with
  | nil => exact Or.inl rfl
  | cons c cs => exact Or.inr (by rw [charStarts]; exact List.mem_cons_self _ _)

/-- Claim C1: lossless partition — for every rule set and every text,
concatenating the segments produced by `split` (the slices of the ranges of
`split_ranges`, in order) reproduces the input text exactly. -/
theorem srx_lossless_partition (rs : Rules) (text : Text) :
    (rs.split text).flatten = text := by
  rw [Rules.split, split_ranges_eq]
  by_cases htext : text = []
  · subst htext
    rfl
  · have hlen : 0 < utf8Len text := utf8Len_pos text htext
    have hbounds : ∀ x ∈ breakPositions (computeMask rs.rules text) text 0, x < utf8Len text := by
      intro x hx
      have := breakPositions_bounds (computeMask rs.rules text) text 0 x hx
      omega
    rw [if_pos (lastD_lt _ 0 _ hlen hbounds)]
    have hsort : List.Pairwise (· ≤ ·)
        (0 :: breakPositions (computeMask rs.rules text) text 0) := by
      refine List.pairwise_cons.mpr ⟨fun y _ => Nat.zero_le y, ?_⟩
      exact (breakPositions_sorted (computeMask rs.rules text) text 0).imp Nat.le_of_lt
    have hB : ∀ y ∈ 0 :: breakPositions (computeMask rs.rules text) text 0,
        y ≤ utf8Len text := by
      intro y hy
      rcases List.mem_cons.mp hy with rfl | hy
      · omega
      · exact Nat.le_of_lt (hbounds y hy)
    rw [pairs_join text (utf8Len text) _ 0 hsort hB, byteSlice_all]

/-- Claim C5: character-boundary safety — every range emitted by
`split_ranges` has a start and an end on character boundaries of the text,
so slicing the text at those ranges in `split` never cuts a code point. -/
theorem srx_char_boundary_safety (rs : Rules) (text : Text) :
    ∀ r ∈ rs.split_ranges text, isCharBoundary text r.1 ∧ isCharBoundary text r.2 := by
  rw [split_ranges_eq]
  intro r hr
  have hchain : ∀ x ∈ 0 :: breakPositions (computeMask rs.rules text) text 0,
      isCharBoundary text x := by
    intro x hx
    rcases List.mem_cons.mp hx with rfl | hx
    · exact zero_boundary text
    · exact Or.inr (breakPositions_sub_starts (computeMask rs.rules text) text 0 x hx)
  have hpairs : ∀ p ∈ pairs (0 :: breakPositions (computeMask rs.rules text) text 0),
      isCharBoundary text p.1 ∧ isCharBoundary text p.2 := by
    intro p hp
    have := pairs_mem _ p hp
    exact ⟨hchain _ this.1, hchain _ this.2⟩
  by_cases hc : lastD (breakPositions (computeMask rs.rules text) text 0) 0 < utf8Len text
  · rw [if_pos hc] at hr
    rcases List.mem_append.mp hr with h | h
    · exact hpairs r h
    · have : r = (lastD (breakPositions (computeMask rs.rules text) text 0) 0, utf8Len text) := by
        simpa using h
      subst this
      exact ⟨hchain _ (lastD_mem_cons _ 0), Or.inl rfl⟩
  · rw [if_neg hc] at hr
    exact hpairs r hr

/-- Claim C10: only the first emitted range can be empty — every range of
`split_ranges` except possibly the first is non-empty, and the first range
is the empty range `0..0` exactly when the text is non-empty and byte
offset `0` is decided as a break by the mask. -/
theorem srx_only_first_segment_empty (rs : Rules) (text : Text) :
    (∀ r ∈ (rs.split_ranges text).tail, r.1 < r.2) ∧
    ((rs.split_ranges text).head? = some (0, 0) ↔
      text ≠ [] ∧ (computeMask rs.rules text).getD 0 none = some true) := by
  constructor
  · rw [split_ranges_eq]
    have hsorted := breakPositions_sorted (computeMask rs.rules text) text 0
    by_cases hc : lastD (breakPositions (computeMask rs.rules text) text 0) 0 < utf8Len text
    · rw [if_pos hc]
      cases hbs : breakPositions (computeMask rs.rules text) text 0 with
      | nil => simp [pairs]
      | cons b1 rest =>
        rw [hbs] at hc hsorted
        rw [pairs_cons_cons, List.cons_append, List.tail_cons]
        intro r hr
        rcases List.mem_append.mp hr with h | h
        · exact pairs_lt _ hsorted r h
        · have : r = (lastD (b1 :: rest) 0, utf8Len text) := by simpa using h
          subst this
          exact hc
    · rw [if_neg hc]
      cases hbs : breakPositions (computeMask rs.rules text) text 0 with
      | nil => simp [pairs]
      | cons b1 rest =>
        rw [hbs] at hsorted
        rw [pairs_cons_cons, List.tail_cons]
        intro r hr
        exact pairs_lt _ hsorted r hr
  · rw [split_ranges_eq]
    cases text with
    | nil =>
      simp [breakPositions, pairs, lastD, utf8Len]
    | cons c cs =>
      have hlen : 0 < utf8Len (c :: cs) := utf8Len_pos _ (by simp)
      have hbounds : ∀ x ∈ breakPositions (computeMask rs.rules (c :: cs)) cs (charSize c),
          x < utf8Len (c :: cs) ∧ 0 < x := by
        intro x hx
        have h1 := breakPositions_bounds (computeMask rs.rules (c :: cs)) cs (charSize c) x hx
        have h2 := charSize_pos c
        rw [utf8Len_cons]
        omega
      by_cases hm : (computeMask rs.rules (c :: cs)).getD 0 none = some true
      · rw [breakPositions, if_pos hm, lastD_cons]
        simp only [Nat.zero_add]
        rw [if_pos (lastD_lt _ 0 _ hlen (fun x hx => (hbounds x hx).1))]
        rw [pairs_cons_cons, List.cons_append, List.head?_cons]
        exact iff_of_true rfl ⟨by simp, hm⟩
      · rw [breakPositions, if_neg hm]
        simp only [Nat.zero_add]
        constructor
        · intro hhead
          exfalso
          cases hbs : breakPositions (computeMask rs.rules (c :: cs)) cs (charSize c) with
          | nil =>
            rw [hbs] at hhead
            rw [if_pos (by simpa [lastD] using hlen)] at hhead
            simp [pairs, lastD] at hhead
            omega
          | cons b1 rest =>
            rw [hbs] at hhead
            have hb1 : 0 < b1 := (hbounds b1 (hbs ▸ List.mem_cons_self _ _)).2
            have hcond : lastD (b1 :: rest) 0 < utf8Len (c :: cs) := by
              refine lastD_lt _ 0 _ hlen ?_
              intro x hx
              exact (hbounds x (hbs ▸ hx)).1
            rw [if_pos hcond, pairs_cons_cons, List.cons_append, List.head?_cons] at hhead
            have := Option.some.inj hhead
            have : b1 = 0 := congrArg Prod.snd this
            omega
        · intro hrhs
          exact absurd hrhs.2 hm

theorem getD_set_self {α : Type} (l : List α) (i : Nat) (v d : α) (h : i < l.length) :
    (l.set i v).getD i d = v := by
  induction l generalizing i with
  | nil => simp at h
  | cons a as ih =>
    cases i with
    | zero => rfl
    | succ j => exact ih j (by simpa using h)

theorem getD_set_ne {α : Type} (l : List α) (i j : Nat) (v d : α) (h : i ≠ j) :
    (l.set i v).getD j d = l.getD j d := by
  induction l generalizing i j with
  | nil => rfl
  | cons a as ih =>
    cases i with
    | zero =>
      cases j with
      | zero => exact absurd rfl h
      | succ k => rfl
    | succ i2 =>
      cases j with
      | zero => rfl
      | succ k => exact ih i2 k (fun hh => h (by omega))

theorem getD_replicate_none (n i : Nat) :
    (List.replicate n (none : Option Bool)).getD i none = none := by
  induction n generalizing i with
  | zero => rfl
  | succ m ih =>
    cases i with
    | zero => rfl
    | succ j => exact ih j

theorem applyRule_length (len : Nat) (v : Bool) (cand : List Nat) :
    ∀ mask : List (Option Bool), (applyRule len v cand mask).length = mask.length := by
  induction cand with
  | nil => intro mask; rfl
  | cons i rest ih =>
    intro mask
    rw [applyRule]
    by_cases h : len ≤ i
    · rw [if_pos h]
    · rw [if_neg h, ih]
      by_cases h2 : (mask.getD i none).isNone
      · rw [if_pos h2, List.length_set]
      · rw [if_neg h2]

theorem applyRule_getD_preserve (len : Nat) (v : Bool) (cand : List Nat) (i : Nat) (w : Bool) :
    ∀ mask : List (Option Bool), mask.getD i none = some w →
      (applyRule len v cand mask).getD i none = some w := by
  induction cand with
  | nil => intro mask h; exact h
  | cons j rest ih =>
    intro mask h
    rw [applyRule]
    by_cases hj : len ≤ j
    · rw [if_pos hj]; exact h
    · rw [if_neg hj]
      apply ih
      by_cases hn : (mask.getD j none).isNone
      · rw [if_pos hn]
        by_cases hij : j = i
        · subst hij
          rw [h] at hn
          simp at hn
        · rw [getD_set_ne _ _ _ _ _ hij]
          exact h
      · rw [if_neg hn]; exact h

theorem applyRule_getD_not_mem (len : Nat) (v : Bool) (cand : List Nat) (i : Nat) :
    ∀ mask : List (Option Bool), i ∉ cand →
      (applyRule len v cand mask).getD i none = mask.getD i none := by
  induction cand with
  | nil => intro mask _; rfl
  | cons j rest ih =>
    intro mask h
    have hji : j ≠ i := fun hh => h (List.mem_cons.mpr (Or.inl hh.symm))
    have hrest : i ∉ rest := fun hh => h (List.mem_cons_of_mem _ hh)
    rw [applyRule]
    by_cases hj : len ≤ j
    · rw [if_pos hj]
    · rw [if_neg hj, ih _ hrest]
      by_cases hn : (mask.getD j none).isNone
      · rw [if_pos hn, getD_set_ne _ _ _ _ _ hji]
      · rw [if_neg hn]

theorem applyRule_sets (len : Nat) (v : Bool) (cand : List Nat) (i : Nat) (hlt : i < len) :
    ∀ mask : List (Option Bool), i ∈ cand → List.Pairwise (· ≤ ·) cand →
      mask.length = len → mask.getD i none = none →
      (applyRule len v cand mask).getD i none = some v := by
  induction cand with
  | nil =>
    intro mask hmem _ _ _
    simp at hmem
  | cons j rest ih =>
    intro mask hmem hsorted hlen hnone
    have hp := List.pairwise_cons.mp hsorted
    rw [applyRule]
    by_cases hj : len ≤ j
    · exfalso
      rcases List.mem_cons.mp hmem with rfl | hmem2
      · omega
      · have := hp.1 i hmem2
        omega
    · rw [if_neg hj]
      by_cases hij : j = i
      · subst hij
        rw [if_pos (by rw [hnone]; rfl)]
        exact applyRule_getD_preserve len v rest j v _
          (getD_set_self mask j (some v) none (by omega))
      · rcases List.mem_cons.mp hmem with h0 | hmem2
        · exact absurd h0 (fun hh => hij hh.symm)
        · by_cases hn : (mask.getD j none).isNone
          · rw [if_pos hn]
            exact ih _ hmem2 hp.2 (by rw [List.length_set]; exact hlen)
              (by rw [getD_set_ne _ _ _ _ _ hij]; exact hnone)
          · rw [if_neg hn]
            exact ih _ hmem2 hp.2 hlen hnone

theorem foldl_mask_preserve (text : Text) (rules : List Rule) (i : Nat) (w : Bool) :
    ∀ init : List (Option Bool), init.getD i none = some w →
      (rules.foldl
        (fun mask r => applyRule (utf8Len text) r.do_break (r.match_indices text) mask)
        init).getD i none = some w := by
  induction rules with
  | nil => intro init h; exact h
  | cons r rest ih =>
    intro init h
    exact ih _ (applyRule_getD_preserve _ _ _ _ _ _ h)

theorem foldl_mask_not_mem (text : Text) (rules : List Rule) (i : Nat)
    (h : ∀ r ∈ rules, i ∉ r.match_indices text) :
    ∀ init : List (Option Bool),
      (rules.foldl
        (fun mask r => applyRule (utf8Len text) r.do_break (r.match_indices text) mask)
        init).getD i none = init.getD i none := by
  induction rules with
  | nil => intro init; rfl
  | cons r rest ih =>
    intro init
    rw [List.foldl_cons,
      ih (fun r2 h2 => h r2 (List.mem_cons_of_mem _ h2)),
      applyRule_getD_not_mem _ _ _ _ _ (h r (List.mem_cons_self _ _))]

theorem foldl_mask_length (text : Text) (rules : List Rule) :
    ∀ init : List (Option Bool),
      (rules.foldl
        (fun mask r => applyRule (utf8Len text) r.do_break (r.match_indices text) mask)
        init).length = init.length := by
  induction rules with
  | nil => intro init; rfl
  | cons r rest ih =>
    intro init
    rw [List.foldl_cons, ih, applyRule_length]

/-- Claim C2: first-rule-wins conflict resolution — if rule `A` precedes
rule `B` in the set, both discover byte offset `i` as a candidate, and
their `do_break` values differ, the decision recorded in the mask at `i`
is `A`'s and never `B`'s; no rule after `A` can overwrite the decision.
The hypothesis `hsorted` is the regex engine's guarantee that candidates
are produced scanning left to right; `hfresh` states that no rule before
`A` claims offset `i`. -/
theorem srx_first_rule_wins (l1 l2 l3 : List Rule) (A B : Rule) (text : Text) (i : Nat)
    (hAB : A.do_break ≠ B.do_break)
    (hiA : i ∈ A.match_indices text)
    (hiB : i ∈ B.match_indices text)
    (hsorted : List.Pairwise (· ≤ ·) (A.match_indices text))
    (hlt : i < utf8Len text)
    (hfresh : ∀ r ∈ l1, i ∉ r.match_indices text) :
    (computeMask (l1 ++ A :: l2 ++ B :: l3) text).getD i none = some A.do_break ∧
    (computeMask (l1 ++ A :: l2 ++ B :: l3) text).getD i none ≠ some B.do_break := by
  have key : (computeMask (l1 ++ A :: l2 ++ B :: l3) text).getD i none = some A.do_break := by
    unfold computeMask
    rw [List.foldl_append]
    apply foldl_mask_preserve
    rw [List.foldl_append, List.foldl_cons]
    apply foldl_mask_preserve
    apply applyRule_sets _ _ _ _ hlt _ hiA hsorted
    · rw [foldl_mask_length]
      exact List.length_replicate _ _
    · rw [foldl_mask_not_mem text l1 i hfresh, getD_replicate_none]
  refine ⟨key, ?_⟩
  rw [key]
  intro hh
  exact hAB (Option.some.inj hh)

/-- The candidate loop the spec describes: apply every candidate offset in
order under the first-wins mask discipline, with no length guard and no
early exit. -/
def applyAll (v : Bool) : List Nat → List (Option Bool) → List (Option Bool)
  | [], mask => mask
  | i :: rest, mask =>
    applyAll v rest (if (mask.getD i none).isNone then mask.set i (some v) else mask)

theorem filter_lt_nil (len : Nat) (l : List Nat) (h : ∀ x ∈ l, len ≤ x) :
    l.filter (fun j => decide (j < len)) = [] := by
  induction l with
  | nil => rfl
  | cons a as ih =>
    rw [List.filter_cons, if_neg (by simpa using Nat.not_lt.mpr (h a (List.mem_cons_self _ _)))]
    exact ih (fun x hx => h x (List.mem_cons_of_mem _ hx))

theorem applyRule_eq_applyAll_filter (len : Nat) (v : Bool) (cand : List Nat)
    (hsorted : List.Pairwise (· ≤ ·) cand) :
    ∀ mask : List (Option Bool),
      applyRule len v cand mask = applyAll v (cand.filter (fun j => decide (j < len))) mask := by
  induction cand with
  | nil => intro mask; rfl
  | cons j rest ih =>
    intro mask
    have hp := List.pairwise_cons.mp hsorted
    by_cases hj : len ≤ j
    · rw [applyRule, if_pos hj]
      have hfilter : (j :: rest).filter (fun j => decide (j < len)) = [] := by
        apply filter_lt_nil
        intro x hx
        rcases List.mem_cons.mp hx with rfl | hx2
        · exact hj
        · exact Nat.le_trans hj (hp.1 x hx2)
      rw [hfilter]
      rfl
    · have hcons : (j :: rest).filter (fun j => decide (j < len))
          = j :: rest.filter (fun j => decide (j < len)) := by
        rw [List.filter_cons, if_pos (by simpa using Nat.lt_of_not_le hj)]
      rw [applyRule, if_neg hj, hcons, applyAll, ih hp.2]

/-- Claim C4: per-rule candidate filtering — under the regex engine's
left-to-right candidate ordering, running the source's candidate loop for
one rule (with its `continue 'outer` early exit at a candidate at or past
the text end) applies exactly the candidates strictly below the text's
byte length, first-wins, discarding the out-of-range candidates and no
in-range one. -/
theorem srx_candidate_filtering (r : Rule) (text : Text) (mask : List (Option Bool))
    (hsorted : List.Pairwise (· ≤ ·) (r.match_indices text)) :
    applyRule (utf8Len text) r.do_break (r.match_indices text) mask =
      applyAll r.do_break
        ((r.match_indices text).filter (fun j => decide (j < utf8Len text))) mask :=
  applyRule_eq_applyAll_filter (utf8Len text) r.do_break (r.match_indices text) hsorted mask

/-! ### Engine construction (`src/from_xml.rs`) and language resolution

Raw-schema values as deserialized from the XML (mod `schema` in
`from_xml.rs`); fields that cannot influence construction (`version`,
`segmentsubflows`, `formathandle`) are omitted.  `Regex::new` of the
`regex` crate is modelled by an abstract `compile` function, passed
explicitly to each operation that compiles a pattern. -/

/-- `schema::Rule`: a raw rule definition. -/
structure SchemaRule where
  do_break : String
  beforebreak : Option String
  afterbreak : Option String
deriving DecidableEq, Repr

/-- `schema::LanguageRule`: a named bucket of raw rule definitions. -/
structure SchemaLanguageRule where
  name : String
  rules : List SchemaRule
deriving DecidableEq, Repr

/-- `schema::LanguageMap`: one `<languagemap>` entry. -/
structure SchemaLanguageMap where
  pattern : String
  name : String
deriving DecidableEq, Repr

/-- `schema::SRX`, restricted to the fields construction reads. -/
structure SchemaSRX where
  cascade : String
  maps : List SchemaLanguageMap
  languagerules : List SchemaLanguageRule
deriving DecidableEq, Repr

/-- The `Error` enum of `from_xml.rs` (`regex::Error` rendered as a string). -/
inductive Error where
  | RegexError : String → Error
  | SRXError : String → Error
deriving DecidableEq, Repr

/-- `format!("{}", error)` via thiserror's `Display` derivation. -/
def Error.toMessage : Error → String
  | .RegexError e => "Error constructing regex: " ++ e
  | .SRXError r => "invalid SRX: " ++ r

/-- Is an `Except` value `ok`? -/
def exceptOk {ε α : Type} : Except ε α → Bool
  | .ok _ => true
  | .error _ => false

/-- `string_to_bool` from `from_xml.rs`. -/
def string_to_bool (s : String) : Except Error Bool :=
  if s = "yes" then .ok true
  else if s = "no" then .ok false
  else .error (.SRXError ("unexpected boolean value " ++ s ++ ". Expected yes or no."))

/-- The `EmptyPatternPair` reason of `Rule::new`. -/
def emptyPairMsg : String := "either before_break or after_break must be set"

/-- `Rule::new` from `from_xml.rs`: fails when both patterns are absent,
otherwise compiles the fused pattern `before_break(after_break)`. -/
def Rule.new (compile : String → Except String Regex)
    (before_break after_break : Option String) (do_break : Bool) : Except Error Rule :=
  if before_break = none ∧ after_break = none then
    .error (.SRXError emptyPairMsg)
  else
    match compile ((before_break.getD "") ++ "(" ++ (after_break.getD "") ++ ")") with
    | .error e => .error (.RegexError e)
    | .ok regex => .ok { regex := regex, do_break := do_break }

/-- `utils::full_regex`: compile the pattern anchored to the full string. -/
def full_regex (compile : String → Except String Regex) (re : String) :
    Except String Regex :=
  compile ("^" ++ re ++ "$")

/-- An entry of the compiled language map (struct `LanguageRegex`). -/
structure LanguageRegex where
  regex : Regex
  language : Language

/-- The compiled SRX engine (struct `SRX` in `src/lib.rs`).  The
`HashMap<Language, _>` fields are modelled as association lists with
at most one entry per key (inserts overwrite). -/
structure SRX where
  cascade : Bool
  map : List LanguageRegex
  rules : List (Language × List Rule)
  errors : List (Language × List String)

/-- `HashMap` lookup on the association-list model. -/
def alistGet {α : Type} : List (Language × α) → Language → Option α
  | [], _ => none
  | p :: rest, key => if p.1 = key then some p.2 else alistGet rest key

/-- `HashMap` insert (overwrite) on the association-list model. -/
def alistInsert {α : Type} : List (Language × α) → Language → α → List (Language × α)
  | [], key, v => [(key, v)]
  | p :: rest, key, v =>
    if p.1 = key then (key, v) :: rest else p :: alistInsert rest key v

/-- The `errors.get_mut(&key).expect(..).push(msg)` of construction: append
a message to the diagnostics list of `key`.  The `expect` branch (key
absent) cannot be reached because `errors` is initialized with an entry
for every declared language; the model leaves the list unchanged there. -/
def pushError : List (Language × List String) → Language → String → List (Language × List String)
  | [], _, _ => []
  | p :: rest, key, msg =>
    if p.1 = key then (p.1, p.2 ++ [msg]) :: rest else p :: pushError rest key msg

/-- Fold a list of diagnostics messages into the errors map. -/
def pushErrors (errors : List (Language × List String)) (key : Language)
    (msgs : List String) : List (Language × List String) :=
  msgs.foldl (fun e m => pushError e key m) errors

/-- `collect::<Result<Vec<_>, _>>()`: evaluate left to right, stopping at
the first error. -/
def mapExcept {ε α β : Type} (f : α → Except ε β) : List α → Except ε (List β)
  | [] => .ok []
  | a :: as =>
    match f a with
    | .error e => .error e
    | .ok b =>
      match mapExcept f as with
      | .error e => .error e
      | .ok bs => .ok (b :: bs)

/-- First pass over one raw rule: parse its `break` attribute (fatal on a
malformed boolean) and keep the pattern pair. -/
def parseRaw (r : SchemaRule) : Except Error (Option String × Option String × Bool) :=
  match string_to_bool r.do_break with
  | .error e => .error e
  | .ok b => .ok (r.beforebreak, r.afterbreak, b)

/-- The `filter_map` pass of construction over one bucket: compile each
parsed rule; on failure drop the rule and append the rendered error to the
bucket's diagnostics. -/
def compileRules (compile : String → Except String Regex) (key : Language) :
    List (Option String × Option String × Bool) → List (Language × List String) →
      List Rule × List (Language × List String)
  | [], errors => ([], errors)
  | (bb, ab, d) :: rest, errors =>
    match Rule.new compile bb ab d with
    | .ok rule =>
      ((rule :: (compileRules compile key rest errors).1),
        (compileRules compile key rest errors).2)
    | .error err => compileRules compile key rest (pushError errors key err.toMessage)

/-- The `rules` map construction of `TryFrom`: process the declared
language buckets in order, threading the diagnostics map. -/
def buildBuckets (compile : String → Except String Regex) :
    List SchemaLanguageRule → List (Language × List Rule) → List (Language × List String) →
      Except Error (List (Language × List Rule) × List (Language × List String))
  | [], rulesAcc, errors => .ok (rulesAcc, errors)
  | lr :: rest, rulesAcc, errors =>
    match mapExcept parseRaw lr.rules with
    | .error e => .error e
    | .ok parsed =>
      buildBuckets compile rest
        (alistInsert rulesAcc ⟨lr.name⟩ (compileRules compile ⟨lr.name⟩ parsed errors).1)
        (compileRules compile ⟨lr.name⟩ parsed errors).2

/-- One `<languagemap>` entry of the compiled map (the `map` construction
of `TryFrom`, with the `?`-conversion of `regex::Error`). -/
def buildMapEntry (compile : String → Except String Regex) (m : SchemaLanguageMap) :
    Except Error LanguageRegex :=
  match full_regex compile m.pattern with
  | .error e => .error (.RegexError e)
  | .ok r => .ok { regex := r, language := ⟨m.name⟩ }

/-- The initial diagnostics map: one empty entry per declared language. -/
def initErrors (lrs : List SchemaLanguageRule) : List (Language × List String) :=
  lrs.foldl (fun acc lr => alistInsert acc ⟨lr.name⟩ []) []

/-- `TryFrom<schema::SRX> for SRX` (`from_xml.rs`): parse the cascade flag,
compile the language map, build the buckets with diagnostics, then check
that every mapped language has a bucket. -/
def tryFrom (compile : String → Except String Regex) (data : SchemaSRX) : Except Error SRX :=
  match string_to_bool data.cascade with
  | .error e => .error e
  | .ok cascade =>
    match mapExcept (buildMapEntry compile) data.maps with
    | .error e => .error e
    | .ok map =>
      match buildBuckets compile data.languagerules [] (initErrors data.languagerules) with
      | .error e => .error e
      | .ok rulesErrors =>
        match map.find? (fun entry => !(alistGet rulesErrors.1 entry.language).isSome) with
        | some entry => .error (.SRXError
            ("<languagerules> must have an entry for each language in <languagemap>. Did not find entry for "
              ++ entry.language.name))
        | none => .ok
            { cascade := cascade, map := map,
              rules := rulesErrors.1, errors := rulesErrors.2 }

/-- Loop body of `SRX::language_rules`: scan the map in order, append the
bucket of every matching entry, stop after the first match unless
cascading.  The `expect` on the bucket lookup is modelled by `none`. -/
def languageRulesGo (cascade : Bool) (rules : List (Language × List Rule)) (code : String) :
    List LanguageRegex → List Rule → Option Rules
  | [], acc => some ⟨acc⟩
  | item :: rest, acc =>
    if item.regex.isMatch code then
      match alistGet rules item.language with
      | none => none
      | some bucket =>
        if cascade then languageRulesGo cascade rules code rest (acc ++ bucket)
        else some ⟨acc ++ bucket⟩
    else languageRulesGo cascade rules code rest acc

/-- `SRX::language_rules`.  `none` models the `expect` panic on a mapped
language with no bucket (proved unreachable for constructed engines). -/
def SRX.language_rules (srx : SRX) (code : String) : Option Rules :=
  languageRulesGo srx.cascade srx.rules code srx.map []

/-- Compilation outcome of one raw rule (parse the boolean, then
`Rule::new`); a rule "fails rule compilation" when this is an error while
`string_to_bool` succeeded. -/
def compiledOf (compile : String → Except String Regex) (r : SchemaRule) : Except Error Rule :=
  match parseRaw r with
  | .error e => .error e
  | .ok parsed => Rule.new compile parsed.1 parsed.2.1 parsed.2.2

/-- The rules of a bucket that compile (order preserved). -/
def bucketOf (compile : String → Except String Regex) (raw : List SchemaRule) : List Rule :=
  raw.filterMap (fun r => (compiledOf compile r).toOption)

/-- The rendered failure messages of a bucket (order preserved). -/
def failsOf (compile : String → Except String Regex) (raw : List SchemaRule) : List String :=
  raw.filterMap (fun r =>
    match compiledOf compile r with
    | .error e => some e.toMessage
    | .ok _ => none)

theorem alistGet_insert_self {α : Type} (l : List (Language × α)) (key : Language) (v : α) :
    alistGet (alistInsert l key v) key = some v := by
  induction l with
  | nil => simp [alistInsert, alistGet]
  | cons p rest ih =>
    rw [alistInsert]
    by_cases h : p.1 = key
    · rw [if_pos h, alistGet, if_pos rfl]
    · rw [if_neg h, alistGet, if_neg h, ih]

theorem alistGet_insert_ne {α : Type} (l : List (Language × α)) (key L : Language) (v : α)
    (h : key ≠ L) : alistGet (alistInsert l key v) L = alistGet l L := by
  induction l with
  | nil => simp [alistInsert, alistGet, h]
  | cons p rest ih =>
    rw [alistInsert]
    by_cases hp : p.1 = key
    · rw [if_pos hp, alistGet, if_neg h, alistGet, if_neg (hp ▸ h)]
    · rw [if_neg hp, alistGet, alistGet]
      by_cases hpL : p.1 = L
      · rw [if_pos hpL, if_pos hpL]
      · rw [if_neg hpL, if_neg hpL, ih]

theorem pushError_get_self (e : List (Language × List String)) (key : Language) (m : String) :
    alistGet (pushError e key m) key = (alistGet e key).map (fun v => v ++ [m]) := by
  induction e with
  | nil => rfl
  | cons p rest ih =>
    rw [pushError]
    by_cases h : p.1 = key
    · rw [if_pos h, alistGet, if_pos h, alistGet, if_pos h]
      rfl
    · rw [if_neg h, alistGet, if_neg h, alistGet, if_neg h, ih]

theorem pushError_get_ne (e : List (Language × List String)) (key L : Language) (m : String)
    (h : key ≠ L) : alistGet (pushError e key m) L = alistGet e L := by
  induction e with
  | nil => rfl
  | cons p rest ih =>
    rw [pushError]
    by_cases hp : p.1 = key
    · rw [if_pos hp, alistGet, if_neg (hp ▸ h), alistGet, if_neg (hp ▸ h)]
    · rw [if_neg hp, alistGet, alistGet]
      by_cases hpL : p.1 = L
      · rw [if_pos hpL, if_pos hpL]
      · rw [if_neg hpL, if_neg hpL, ih]

theorem pushErrors_get_self (key : Language) :
    ∀ (msgs : List String) (e : List (Language × List String)),
      alistGet (pushErrors e key msgs) key = (alistGet e key).map (fun v => v ++ msgs) := by
  intro msgs
  induction msgs with
  | nil =>
    intro e
    cases h : alistGet e key <;> simp [pushErrors, h]
  | cons m ms ih =>
    intro e
    rw [show pushErrors e key (m :: ms) = pushErrors (pushError e key m) key ms from rfl,
      ih, pushError_get_self]
    cases h : alistGet e key <;> simp

theorem pushErrors_get_ne (key L : Language) (h : key ≠ L) :
    ∀ (msgs : List String) (e : List (Language × List String)),
      alistGet (pushErrors e key msgs) L = alistGet e L := by
  intro msgs
  induction msgs with
  | nil => intro e; rfl
  | cons m ms ih =>
    intro e
    rw [show pushErrors e key (m :: ms) = pushErrors (pushError e key m) key ms from rfl,
      ih, pushError_get_ne _ _ _ _ h]

theorem mapExcept_ok_forall2 {ε α β : Type} (f : α → Except ε β) :
    ∀ (xs : List α) (ys : List β), mapExcept f xs = .ok ys →
      List.Forall₂ (fun x y => f x = .ok y) xs ys := by
  intro xs
  induction xs with
  | nil =>
    intro ys h
    simp [mapExcept] at h
    subst h
    exact List.Forall₂.nil
  | cons a as ih =>
    intro ys h
    rw [mapExcept] at h
    cases hf : f a with
    | error e => rw [hf] at h; simp at h
    | ok b =>
      rw [hf] at h
      cases hrest : mapExcept f as with
      | error e => rw [hrest] at h; simp at h
      | ok bs =>
        rw [hrest] at h
        have hys : b :: bs = ys := by
          injection h
        subst hys
        exact List.Forall₂.cons hf (ih bs hrest)

theorem mapExcept_ok_mem {ε α β : Type} (f : α → Except ε β) (xs : List α) (ys : List β)
    (h : mapExcept f xs = .ok ys) (x : α) (hx : x ∈ xs) :
    ∃ y, y ∈ ys ∧ f x = .ok y := by
  induction xs generalizing ys with
  | nil => simp at hx
  | cons a as ih =>
    rw [mapExcept] at h
    cases hf : f a with
    | error e => rw [hf] at h; simp at h
    | ok b =>
      rw [hf] at h
      cases hrest : mapExcept f as with
      | error e => rw [hrest] at h; simp at h
      | ok bs =>
        rw [hrest] at h
        have hys : b :: bs = ys := by injection h
        subst hys
        rcases List.mem_cons.mp hx with rfl | hx2
        · exact ⟨b, List.mem_cons_self _ _, hf⟩
        · obtain ⟨y, hy, hfy⟩ := ih bs hrest hx2
          exact ⟨y, List.mem_cons_of_mem _ hy, hfy⟩

theorem compileRules_spec (compile : String → Except String Regex) (key : Language) :
    ∀ (raw : List SchemaRule) (parsed : List (Option String × Option String × Bool))
      (errors : List (Language × List String)),
      mapExcept parseRaw raw = .ok parsed →
      compileRules compile key parsed errors
        = (bucketOf compile raw, pushErrors errors key (failsOf compile raw)) := by
  intro raw
  induction raw with
  | nil =>
    intro parsed errors h
    simp [mapExcept] at h
    subst h
    cases hg : alistGet errors key <;> simp [compileRules, bucketOf, failsOf, pushErrors]
  | cons r rest ih =>
    intro parsed errors h
    rw [mapExcept] at h
    cases hp : parseRaw r with
    | error e => rw [hp] at h; simp at h
    | ok trip =>
      rw [hp] at h
      cases hrest : mapExcept parseRaw rest with
      | error e => rw [hrest] at h; simp at h
      | ok prest =>
        rw [hrest] at h
        have hparsed : trip :: prest = parsed := by injection h
        subst hparsed
        obtain ⟨bb, ab, d⟩ := trip
        have hco : compiledOf compile r = Rule.new compile bb ab d := by
          rw [compiledOf, hp]
        cases hrn : Rule.new compile bb ab d with
        | ok rule =>
          simp only [compileRules, hrn, ih prest errors hrest, bucketOf, failsOf,
            List.filterMap_cons, hco, Except.toOption]
        | error err =>
          simp only [compileRules, hrn, ih prest (pushError errors key err.toMessage) hrest,
            bucketOf, failsOf, List.filterMap_cons, hco, Except.toOption]
          rfl

theorem compileRules_errors_ne (compile : String → Except String Regex) (key L : Language)
    (hne : key ≠ L) :
    ∀ (parsed : List (Option String × Option String × Bool))
      (errors : List (Language × List String)),
      alistGet (compileRules compile key parsed errors).2 L = alistGet errors L := by
  intro parsed
  induction parsed with
  | nil => intro errors; rfl
  | cons trip rest ih =>
    intro errors
    obtain ⟨bb, ab, d⟩ := trip
    rw [compileRules]
    cases hrn : Rule.new compile bb ab d with
    | ok rule => exact ih errors
    | error err => rw [ih, pushError_get_ne _ _ _ _ hne]

theorem buildBuckets_frozen (compile : String → Except String Regex) (L : Language) :
    ∀ (lrs : List SchemaLanguageRule) (ra : List (Language × List Rule))
      (e : List (Language × List String))
      (out : List (Language × List Rule) × List (Language × List String)),
      buildBuckets compile lrs ra e = .ok out →
      (∀ lr2 ∈ lrs, (⟨lr2.name⟩ : Language) ≠ L) →
      alistGet out.1 L = alistGet ra L ∧ alistGet out.2 L = alistGet e L := by
  intro lrs
  induction lrs with
  | nil =>
    intro ra e out h _
    have hout : (ra, e) = out := by
      rw [buildBuckets] at h
      injection h
    subst hout
    exact ⟨rfl, rfl⟩
  | cons lr rest ih =>
    intro ra e out h hne
    rw [buildBuckets] at h
    cases hp : mapExcept parseRaw lr.rules with
    | error e2 => rw [hp] at h; simp at h
    | ok parsed =>
      rw [hp] at h
      have hkey : (⟨lr.name⟩ : Language) ≠ L := hne lr (List.mem_cons_self _ _)
      have hrec := ih _ _ out h (fun lr2 h2 => hne lr2 (List.mem_cons_of_mem _ h2))
      refine ⟨?_, ?_⟩
      · rw [hrec.1, alistGet_insert_ne _ _ _ _ hkey]
      · rw [hrec.2, compileRules_errors_ne _ _ _ hkey]

theorem buildBuckets_mem (compile : String → Except String Regex) :
    ∀ (lrs : List SchemaLanguageRule) (ra : List (Language × List Rule))
      (e : List (Language × List String))
      (out : List (Language × List Rule) × List (Language × List String))
      (lr : SchemaLanguageRule),
      buildBuckets compile lrs ra e = .ok out →
      (lrs.map SchemaLanguageRule.name).Nodup →
      lr ∈ lrs →
      alistGet out.1 ⟨lr.name⟩ = some (bucketOf compile lr.rules) ∧
      alistGet out.2 ⟨lr.name⟩
        = (alistGet e ⟨lr.name⟩).map (fun v => v ++ failsOf compile lr.rules) := by
  intro lrs
  induction lrs with
  | nil =>
    intro _ _ _ _ _ _ hmem
    simp at hmem
  | cons x rest ih =>
    intro ra e out lr h hnodup hmem
    rw [List.map_cons] at hnodup
    have hnd := List.nodup_cons.mp hnodup
    rw [buildBuckets] at h
    cases hp : mapExcept parseRaw x.rules with
    | error e2 => rw [hp] at h; simp at h
    | ok parsed =>
      rw [hp] at h
      have h2 : buildBuckets compile rest
          (alistInsert ra ⟨x.name⟩ (compileRules compile ⟨x.name⟩ parsed e).1)
          (compileRules compile ⟨x.name⟩ parsed e).2 = .ok out := h
      rw [compileRules_spec compile ⟨x.name⟩ x.rules parsed e hp] at h2
      clear h
      rename' h2 => h
      rcases List.mem_cons.mp hmem with rfl | hmem2
      · have hne : ∀ lr2 ∈ rest, (⟨lr2.name⟩ : Language) ≠ (⟨lr.name⟩ : Language) := by
          intro lr2 h2 hcontra
          have hn : lr2.name = lr.name := congrArg Language.name hcontra
          exact hnd.1 (hn ▸ List.mem_map_of_mem _ h2)
        have hfr := buildBuckets_frozen compile ⟨lr.name⟩ rest _ _ out h hne
        refine ⟨?_, ?_⟩
        · rw [hfr.1, alistGet_insert_self]
        · rw [hfr.2, pushErrors_get_self]
      · have hxname : (⟨x.name⟩ : Language) ≠ (⟨lr.name⟩ : Language) := by
          intro hcontra
          have hn : x.name = lr.name := congrArg Language.name hcontra
          exact hnd.1 (hn ▸ List.mem_map_of_mem _ hmem2)
        have hrec := ih _ _ out lr h hnd.2 hmem2
        refine ⟨hrec.1, ?_⟩
        rw [hrec.2, pushErrors_get_ne _ _ hxname]

theorem initFold_not_mem (L : Language) :
    ∀ (lrs : List SchemaLanguageRule) (acc : List (Language × List String)),
      (∀ lr ∈ lrs, (⟨lr.name⟩ : Language) ≠ L) →
      alistGet (lrs.foldl (fun acc lr => alistInsert acc ⟨lr.name⟩ []) acc) L
        = alistGet acc L := by
  intro lrs
  induction lrs with
  | nil => intro acc _; rfl
  | cons x rest ih =>
    intro acc hne
    rw [List.foldl_cons, ih _ (fun lr h => hne lr (List.mem_cons_of_mem _ h)),
      alistGet_insert_ne _ _ _ _ (hne x (List.mem_cons_self _ _))]

theorem initFold_mem :
    ∀ (lrs : List SchemaLanguageRule) (acc : List (Language × List String))
      (lr : SchemaLanguageRule), lr ∈ lrs →
      alistGet (lrs.foldl (fun acc lr => alistInsert acc ⟨lr.name⟩ []) acc) ⟨lr.name⟩
        = some [] := by
  intro lrs
  induction lrs with
  | nil =>
    intro acc lr h
    simp at h
  | cons x rest ih =>
    intro acc lr hmem
    rw [List.foldl_cons]
    rcases List.mem_cons.mp hmem with rfl | h2
    · by_cases hdup : ∃ lr2 ∈ rest, (⟨lr2.name⟩ : Language) = (⟨lr.name⟩ : Language)
      · obtain ⟨lr2, h2, heq⟩ := hdup
        have := ih (alistInsert acc ⟨lr.name⟩ []) lr2 h2
        rw [heq] at this
        exact this
      · push_neg at hdup
        rw [initFold_not_mem _ rest _ hdup, alistGet_insert_self]
    · exact ih _ lr h2

theorem initErrors_get (lrs : List SchemaLanguageRule) (lr : SchemaLanguageRule)
    (h : lr ∈ lrs) : alistGet (initErrors lrs) ⟨lr.name⟩ = some [] :=
  initFold_mem lrs [] lr h

theorem tryFrom_ok (compile : String → Except String Regex) (data : SchemaSRX) (srx : SRX)
    (h : tryFrom compile data = .ok srx) :
    ∃ cascade map rulesErrors,
      string_to_bool data.cascade = .ok cascade ∧
      mapExcept (buildMapEntry compile) data.maps = .ok map ∧
      buildBuckets compile data.languagerules [] (initErrors data.languagerules)
        = .ok rulesErrors ∧
      map.find? (fun entry => !(alistGet rulesErrors.1 entry.language).isSome) = none ∧
      srx = { cascade := cascade, map := map,
              rules := rulesErrors.1, errors := rulesErrors.2 } := by
  unfold tryFrom at h
  split at h
  · simp at h
  · rename_i cascade h1
    split at h
    · simp at h
    · rename_i map h2
      split at h
      · simp at h
      · rename_i re h3
        split at h
        · simp at h
        · rename_i h4
          have hsrx : SRX.mk cascade map re.1 re.2 = srx := by injection h
          exact ⟨cascade, map, re, h1, h2, h3, h4, hsrx.symm⟩

theorem exceptOk_iff {ε α : Type} (x : Except ε α) : exceptOk x = true ↔ ∃ a, x = .ok a := by
  cases x <;> simp [exceptOk]

theorem buildMapEntry_ok (compile : String → Except String Regex) (m : SchemaLanguageMap)
    (entry : LanguageRegex) (h : buildMapEntry compile m = .ok entry) :
    entry.language = ⟨m.name⟩ ∧ full_regex compile m.pattern = .ok entry.regex := by
  rw [buildMapEntry] at h
  cases hfr : full_regex compile m.pattern with
  | error e => rw [hfr] at h; simp at h
  | ok r =>
    rw [hfr] at h
    have hentry : LanguageRegex.mk r ⟨m.name⟩ = entry := by injection h
    subst hentry
    exact ⟨rfl, rfl⟩

theorem bucketOf_cons_ok (compile : String → Except String Regex) (r : SchemaRule)
    (rest : List SchemaRule) (rule : Rule) (h : compiledOf compile r = .ok rule) :
    bucketOf compile (r :: rest) = rule :: bucketOf compile rest := by
  simp [bucketOf, List.filterMap_cons, h, Except.toOption]

theorem bucketOf_cons_err (compile : String → Except String Regex) (r : SchemaRule)
    (rest : List SchemaRule) (err : Error) (h : compiledOf compile r = .error err) :
    bucketOf compile (r :: rest) = bucketOf compile rest := by
  simp [bucketOf, List.filterMap_cons, h, Except.toOption]

theorem failsOf_cons_ok (compile : String → Except String Regex) (r : SchemaRule)
    (rest : List SchemaRule) (rule : Rule) (h : compiledOf compile r = .ok rule) :
    failsOf compile (r :: rest) = failsOf compile rest := by
  simp [failsOf, List.filterMap_cons, h]

theorem failsOf_cons_err (compile : String → Except String Regex) (r : SchemaRule)
    (rest : List SchemaRule) (err : Error) (h : compiledOf compile r = .error err) :
    failsOf compile (r :: rest) = err.toMessage :: failsOf compile rest := by
  simp [failsOf, List.filterMap_cons, h]

theorem bucketOf_failsOf_length (compile : String → Except String Regex)
    (raw : List SchemaRule) :
    (bucketOf compile raw).length + (failsOf compile raw).length = raw.length := by
  induction raw with
  | nil => rfl
  | cons r rest ih =>
    cases h : compiledOf compile r with
    | ok rule =>
      rw [bucketOf_cons_ok compile r rest rule h, failsOf_cons_ok compile r rest rule h,
        List.length_cons, List.length_cons]
      omega
    | error err =>
      rw [bucketOf_cons_err compile r rest err h, failsOf_cons_err compile r rest err h,
        List.length_cons, List.length_cons]
      omega

theorem failsOf_length_filter (compile : String → Except String Regex)
    (raw : List SchemaRule) :
    (failsOf compile raw).length
      = (raw.filter (fun r => !(exceptOk (compiledOf compile r)))).length := by
  induction raw with
  | nil => rfl
  | cons r rest ih =>
    rw [List.filter_cons]
    cases h : compiledOf compile r with
    | ok rule =>
      rw [failsOf_cons_ok compile r rest rule h, if_neg (by simp [h, exceptOk])]
      exact ih
    | error err =>
      rw [failsOf_cons_err compile r rest err h, if_pos (by simp [h, exceptOk]),
        List.length_cons, List.length_cons, ih]

theorem mapExcept_parse_ok (raw : List SchemaRule)
    (h : ∀ r ∈ raw, exceptOk (string_to_bool r.do_break) = true) :
    exceptOk (mapExcept parseRaw raw) = true := by
  induction raw with
  | nil => rfl
  | cons r rest ih =>
    have h1 := h r (List.mem_cons_self _ _)
    cases hb : string_to_bool r.do_break with
    | error e => rw [hb] at h1; simp [exceptOk] at h1
    | ok b =>
      have hp : parseRaw r = .ok (r.beforebreak, r.afterbreak, b) := by
        rw [parseRaw, hb]
      have h2 := ih (fun x hx => h x (List.mem_cons_of_mem _ hx))
      cases hrest : mapExcept parseRaw rest with
      | error e => rw [hrest] at h2; simp [exceptOk] at h2
      | ok prest => simp [mapExcept, hp, hrest, exceptOk]

theorem buildBuckets_ok (compile : String → Except String Regex) :
    ∀ (lrs : List SchemaLanguageRule) (ra : List (Language × List Rule))
      (e : List (Language × List String)),
      (∀ lr ∈ lrs, ∀ r ∈ lr.rules, exceptOk (string_to_bool r.do_break) = true) →
      exceptOk (buildBuckets compile lrs ra e) = true := by
  intro lrs
  induction lrs with
  | nil => intro ra e _; rfl
  | cons lr rest ih =>
    intro ra e hp
    have h1 := mapExcept_parse_ok lr.rules (hp lr (List.mem_cons_self _ _))
    cases hm : mapExcept parseRaw lr.rules with
    | error e2 => rw [hm] at h1; simp [exceptOk] at h1
    | ok parsed =>
      simp only [buildBuckets, hm]
      exact ih _ _ (fun l h2 r h3 => hp l (List.mem_cons_of_mem _ h2) r h3)

theorem compileRules_fst (compile : String → Except String Regex) (key : Language) :
    ∀ (parsed : List (Option String × Option String × Bool))
      (errors errors2 : List (Language × List String)),
      (compileRules compile key parsed errors).1
        = (compileRules compile key parsed errors2).1 := by
  intro parsed
  induction parsed with
  | nil => intro errors errors2; rfl
  | cons trip rest ih =>
    intro errors errors2
    obtain ⟨bb, ab, d⟩ := trip
    cases hrn : Rule.new compile bb ab d with
    | ok rule => simp only [compileRules, hrn, List.cons.injEq, true_and]; exact ih _ _
    | error err => simp only [compileRules, hrn]; exact ih _ _

theorem languageRulesGo_cons_match (cascade : Bool) (rules : List (Language × List Rule))
    (code : String) (item : LanguageRegex) (rest : List LanguageRegex) (acc : List Rule)
    (bucket : List Rule) (hmatch : item.regex.isMatch code = true)
    (hget : alistGet rules item.language = some bucket) :
    languageRulesGo cascade rules code (item :: rest) acc
      = (if cascade then languageRulesGo cascade rules code rest (acc ++ bucket)
         else some ⟨acc ++ bucket⟩) := by
  rw [languageRulesGo, if_pos hmatch, hget]

theorem languageRulesGo_cons_panic (cascade : Bool) (rules : List (Language × List Rule))
    (code : String) (item : LanguageRegex) (rest : List LanguageRegex) (acc : List Rule)
    (hmatch : item.regex.isMatch code = true)
    (hget : alistGet rules item.language = none) :
    languageRulesGo cascade rules code (item :: rest) acc = none := by
  rw [languageRulesGo, if_pos hmatch, hget]

theorem languageRulesGo_cons_skip (cascade : Bool) (rules : List (Language × List Rule))
    (code : String) (item : LanguageRegex) (rest : List LanguageRegex) (acc : List Rule)
    (hmatch : ¬item.regex.isMatch code = true) :
    languageRulesGo cascade rules code (item :: rest) acc
      = languageRulesGo cascade rules code rest acc := by
  rw [languageRulesGo, if_neg hmatch]

theorem languageRulesGo_isSome (cascade : Bool) (rules : List (Language × List Rule))
    (code : String) :
    ∀ (m : List LanguageRegex) (acc : List Rule),
      (∀ item ∈ m, (alistGet rules item.language).isSome = true) →
      (languageRulesGo cascade rules code m acc).isSome = true := by
  intro m
  induction m with
  | nil => intro acc _; rfl
  | cons item rest ih =>
    intro acc hcov
    by_cases hmatch : item.regex.isMatch code = true
    · cases hget : alistGet rules item.language with
      | none =>
        have := hcov item (List.mem_cons_self _ _)
        rw [hget] at this
        simp at this
      | some bucket =>
        rw [languageRulesGo_cons_match cascade rules code item rest acc bucket hmatch hget]
        cases cascade with
        | true =>
          rw [if_pos rfl]
          exact ih _ (fun it h => hcov it (List.mem_cons_of_mem _ h))
        | false => rfl
    · rw [languageRulesGo_cons_skip cascade rules code item rest acc hmatch]
      exact ih _ (fun it h => hcov it (List.mem_cons_of_mem _ h))

theorem languageRulesGo_eq (cascade : Bool) (rules : List (Language × List Rule))
    (code : String) :
    ∀ (m : List LanguageRegex) (acc : List Rule),
      (∀ item ∈ m, item.regex.isMatch code = true →
        (alistGet rules item.language).isSome = true) →
      languageRulesGo cascade rules code m acc = some ⟨acc ++
        (if cascade then
          ((m.filter (fun item => item.regex.isMatch code)).map
            (fun item => (alistGet rules item.language).getD [])).flatten
        else
          match m.find? (fun item => item.regex.isMatch code) with
          | some item => (alistGet rules item.language).getD []
          | none => [])⟩ := by
  intro m
  induction m with
  | nil =>
    intro acc _
    cases cascade <;> simp [languageRulesGo]
  | cons item rest ih =>
    intro acc hcov
    by_cases hmatch : item.regex.isMatch code = true
    · cases hget : alistGet rules item.language with
      | none =>
        have := hcov item (List.mem_cons_self _ _) hmatch
        rw [hget] at this
        simp at this
      | some bucket =>
        have hfilter : (item :: rest).filter (fun it => it.regex.isMatch code)
            = item :: rest.filter (fun it => it.regex.isMatch code) := by
          rw [List.filter_cons, if_pos hmatch]
        have hfind : (item :: rest).find? (fun it => it.regex.isMatch code) = some item :=
          List.find?_cons_of_pos _ hmatch
        rw [languageRulesGo_cons_match cascade rules code item rest acc bucket hmatch hget]
        cases cascade with
        | true =>
          rw [if_pos rfl]
          rw [ih (acc ++ bucket) (fun it h hm2 => hcov it (List.mem_cons_of_mem _ h) hm2)]
          rw [hfilter]
          simp [hget, List.append_assoc]
        | false =>
          rw [hfind]
          simp [hget]
    · rw [languageRulesGo_cons_skip cascade rules code item rest acc hmatch]
      rw [ih acc (fun it h hm2 => hcov it (List.mem_cons_of_mem _ h) hm2)]
      have hfilter : (item :: rest).filter (fun it => it.regex.isMatch code)
          = rest.filter (fun it => it.regex.isMatch code) := by
        rw [List.filter_cons, if_neg hmatch]
      have hfind : (item :: rest).find? (fun it => it.regex.isMatch code)
          = rest.find? (fun it => it.regex.isMatch code) :=
        List.find?_cons_of_neg _ (by simpa using hmatch)
      rw [hfilter, hfind]

theorem languageRulesGo_nomatch (cascade : Bool) (rules : List (Language × List Rule))
    (code : String) :
    ∀ (m : List LanguageRegex) (acc : List Rule),
      (∀ item ∈ m, item.regex.isMatch code = false) →
      languageRulesGo cascade rules code m acc = some ⟨acc⟩ := by
  intro m
  induction m with
  | nil => intro acc _; rfl
  | cons item rest ih =>
    intro acc h
    rw [languageRulesGo, if_neg (by simp [h item (List.mem_cons_self _ _)])]
    exact ih acc (fun it h2 => h it (List.mem_cons_of_mem _ h2))

theorem breakPositions_replicate (n : Nat) : ∀ (cs : Text) (pos : Nat),
    breakPositions (List.replicate n none) cs pos = [] := by
  intro cs
  induction cs with
  | nil => intro pos; rfl
  | cons c cs ih =>
    intro pos
    rw [breakPositions, if_neg (by rw [getD_replicate_none]; simp), ih]

/-- Claim C3: language resolution follows the cascade flag — for every
engine produced by construction, the compiled map pairs each entry's
anchored pattern (`full_regex`, matching the whole code) with its declared
language in declared order, and `language_rules` returns: with
`cascade = false`, exactly the bucket of the first matching entry in its
original internal order; with `cascade = true`, the concatenation in map
order of every matching entry's bucket. -/
theorem srx_cascade_resolution (compile : String → Except String Regex) (data : SchemaSRX)
    (srx : SRX) (code : String) (hok : tryFrom compile data = .ok srx) :
    List.Forall₂ (fun (m : SchemaLanguageMap) (entry : LanguageRegex) =>
        entry.language = ⟨m.name⟩ ∧ full_regex compile m.pattern = .ok entry.regex)
      data.maps srx.map ∧
    srx.language_rules code = some ⟨
      if srx.cascade then
        ((srx.map.filter (fun item => item.regex.isMatch code)).map
          (fun item => (alistGet srx.rules item.language).getD [])).flatten
      else
        match srx.map.find? (fun item => item.regex.isMatch code) with
        | some item => (alistGet srx.rules item.language).getD []
        | none => []⟩ := by
  obtain ⟨cascade, map, re, h1, h2, h3, h4, h5⟩ := tryFrom_ok compile data srx hok
  subst h5
  constructor
  · exact List.Forall₂.imp (fun x y h => buildMapEntry_ok compile x y h)
      (mapExcept_ok_forall2 _ _ _ h2)
  · have hcov : ∀ item ∈ map, item.regex.isMatch code = true →
        (alistGet re.1 item.language).isSome = true := by
      intro item hitem _
      have hfn := List.find?_eq_none.mp h4 item hitem
      cases halist : alistGet re.1 item.language with
      | none => rw [halist] at hfn; simp at hfn
      | some bucket => rfl
    have := languageRulesGo_eq cascade re.1 code map [] hcov
    rw [List.nil_append] at this
    exact this

/-- A compiled regex that matches nothing and produces no candidates. -/
def falseRegex : Regex := { isMatch := fun _ => false, captureStarts := fun _ => [] }

def srxNone : SRX :=
  { cascade := false,
    map := [{ regex := falseRegex, language := ⟨"en"⟩ }],
    rules := [(⟨"en"⟩, [])],
    errors := [(⟨"en"⟩, [])] }

/-- Claim C6 is false at the empty text: the unmatched language code yields
the empty rule set, and the empty rule set's `split` on the empty text
returns no segments rather than one segment equal to the text. -/
theorem srx_unmatched_empty_text_cex :
    srxNone.language_rules "zz" = some ⟨[]⟩ ∧
    (Rules.mk []).split ([] : Text) = ([] : List Text) ∧
    ([] : List Text) ≠ [([] : Text)] :=
  ⟨rfl, rfl, by simp⟩

/-- Claim C6 (amended): `language_rules` on a map with no matching entry
yields an empty rule set, and the empty rule set's `split` returns any
non-empty text as a single unsplit segment (on the empty text it returns
no segments, per the counterexample). -/
theorem srx_unmatched_single_segment (srx : SRX) (code : String) (text : Text)
    (hnm : ∀ item ∈ srx.map, item.regex.isMatch code = false)
    (htext : text ≠ []) :
    srx.language_rules code = some ⟨[]⟩ ∧ Rules.split ⟨[]⟩ text = [text] := by
  constructor
  · exact languageRulesGo_nomatch srx.cascade srx.rules code srx.map [] hnm
  · rw [Rules.split, split_ranges_eq]
    rw [show computeMask ([] : List Rule) text = List.replicate (utf8Len text) none from rfl,
      breakPositions_replicate]
    rw [if_pos (by simpa [lastD] using utf8Len_pos text htext)]
    simp [pairs, lastD, byteSlice_all]

/-- Claim C7: diagnostics accounting — for every rule table on which
construction succeeds (with distinct declared language names, as the rule
table's bucket mapping requires), a declared bucket of `R` raw rules of
which `k` fail rule compilation yields an active bucket of exactly
`R - k` rules and a diagnostics entry of exactly `k` messages; every
declared language has a diagnostics entry. -/
theorem srx_diagnostics_accounting (compile : String → Except String Regex) (data : SchemaSRX)
    (srx : SRX) (hok : tryFrom compile data = .ok srx)
    (hnodup : (data.languagerules.map SchemaLanguageRule.name).Nodup)
    (lr : SchemaLanguageRule) (hmem : lr ∈ data.languagerules) :
    alistGet srx.rules ⟨lr.name⟩ = some (bucketOf compile lr.rules) ∧
    alistGet srx.errors ⟨lr.name⟩ = some (failsOf compile lr.rules) ∧
    (bucketOf compile lr.rules).length + (failsOf compile lr.rules).length
      = lr.rules.length ∧
    (failsOf compile lr.rules).length
      = (lr.rules.filter (fun r => !(exceptOk (compiledOf compile r)))).length := by
  obtain ⟨cascade, map, re, h1, h2, h3, h4, h5⟩ := tryFrom_ok compile data srx hok
  subst h5
  have hbb := buildBuckets_mem compile data.languagerules [] (initErrors data.languagerules)
    re lr h3 hnodup hmem
  have hinit := initErrors_get data.languagerules lr hmem
  refine ⟨hbb.1, ?_, bucketOf_failsOf_length compile lr.rules,
    failsOf_length_filter compile lr.rules⟩
  rw [hbb.2, hinit]
  simp

/-- Claim C8: rule construction precondition — `Rule::new` with both
pattern halves absent fails with the `EmptyPatternPair` reason; the
failure is local: the offending rule is merely dropped from its bucket
(the other rules compile unchanged) and bucket processing never aborts
engine construction (only malformed boolean attributes can). -/
theorem srx_empty_pattern_pair_local (compile : String → Except String Regex) (b : Bool)
    (key : Language) (pre post : List (Option String × Option String × Bool))
    (errors : List (Language × List String))
    (lrs : List SchemaLanguageRule) (ra : List (Language × List Rule))
    (e : List (Language × List String))
    (hparse : ∀ lr ∈ lrs, ∀ r ∈ lr.rules, exceptOk (string_to_bool r.do_break) = true) :
    Rule.new compile none none b = .error (.SRXError emptyPairMsg) ∧
    (compileRules compile key (pre ++ (none, none, b) :: post) errors).1
      = (compileRules compile key (pre ++ post) errors).1 ∧
    exceptOk (buildBuckets compile lrs ra e) = true := by
  have hbad : Rule.new compile none none b = .error (.SRXError emptyPairMsg) := by
    rw [Rule.new, if_pos ⟨rfl, rfl⟩]
  refine ⟨hbad, ?_, buildBuckets_ok compile lrs ra e hparse⟩
  induction pre generalizing errors with
  | nil =>
    simp only [List.nil_append, compileRules, hbad]
    exact compileRules_fst compile key post _ errors
  | cons trip rest ih =>
    obtain ⟨bb, ab, d⟩ := trip
    simp only [List.cons_append, compileRules]
    cases hrn : Rule.new compile bb ab d with
    | ok rule =>
      simp only [List.cons.injEq, true_and]
      exact ih errors
    | error err =>
      exact ih (pushError errors key err.toMessage)

/-- Claim C9: resolution totality — construction fails when the language
map references a language with no declared rule bucket; consequently, on
every engine construction produces, `language_rules` always returns a
rule set (the bucket lookup's `expect` panic branch, modelled as `none`,
is unreachable). -/
theorem srx_resolution_totality (compile : String → Except String Regex) (data : SchemaSRX)
    (srx : SRX) (m : SchemaLanguageMap) (code : String) :
    (m ∈ data.maps → (∀ lr ∈ data.languagerules, lr.name ≠ m.name) →
      exceptOk (tryFrom compile data) = false) ∧
    (tryFrom compile data = .ok srx → (srx.language_rules code).isSome = true) := by
  constructor
  · intro hm hnames
    by_contra hne
    have hex : ∃ srx2, tryFrom compile data = .ok srx2 := by
      cases hx : tryFrom compile data with
      | error e2 => rw [hx] at hne; exact absurd rfl hne
      | ok srx2 => exact ⟨srx2, rfl⟩
    obtain ⟨srx2, hok2⟩ := hex
    obtain ⟨cascade, map, re, h1, h2, h3, h4, h5⟩ := tryFrom_ok compile data srx2 hok2
    obtain ⟨entry, hentry_mem, hentry⟩ := mapExcept_ok_mem _ _ _ h2 m hm
    have hlang := (buildMapEntry_ok compile m entry hentry).1
    have hget : alistGet re.1 entry.language = none := by
      rw [hlang]
      have hne2 : ∀ lr2 ∈ data.languagerules,
          (⟨lr2.name⟩ : Language) ≠ (⟨m.name⟩ : Language) := by
        intro lr2 h2a hcontra
        exact hnames lr2 h2a (congrArg Language.name hcontra)
      exact (buildBuckets_frozen compile ⟨m.name⟩ data.languagerules []
        (initErrors data.languagerules) re h3 hne2).1.trans rfl
    have := List.find?_eq_none.mp h4 entry hentry_mem
    simp [hget] at this
  · intro hok
    obtain ⟨cascade, map, re, h1, h2, h3, h4, h5⟩ := tryFrom_ok compile data srx hok
    subst h5
    have hcov : ∀ item ∈ map, (alistGet re.1 item.language).isSome = true := by
      intro item hitem
      have hfn := List.find?_eq_none.mp h4 item hitem
      cases halist : alistGet re.1 item.language with
      | none => rw [halist] at hfn; simp at hfn
      | some bucket => rfl
    exact languageRulesGo_isSome cascade re.1 code map [] hcov

/-! ### Concrete instances for the witnesses -/

/-- A compiled regex that matches every string and produces no candidates. -/
def trueRegex : Regex := { isMatch := fun _ => true, captureStarts := fun _ => [] }

/-- A regex compiler that always succeeds (with `trueRegex`). -/
def okCompile : String → Except String Regex := fun _ => .ok trueRegex

/-- A rule whose matcher always produces the given candidate offsets. -/
def capRule (l : List Nat) (b : Bool) : Rule :=
  { regex := { isMatch := fun _ => true, captureStarts := fun _ => l }, do_break := b }

/-- A one-bucket schema: one rule that compiles and one with both pattern
halves absent. -/
def lrDiag : SchemaLanguageRule :=
  { name := "en",
    rules := [{ do_break := "yes", beforebreak := some "a", afterbreak := none },
              { do_break := "no", beforebreak := none, afterbreak := none }] }

def dataDiag : SchemaSRX := { cascade := "no", maps := [], languagerules := [lrDiag] }

def srxDiag : SRX :=
  { cascade := false, map := [],
    rules := [(⟨"en"⟩, [{ regex := trueRegex, do_break := true }])],
    errors := [(⟨"en"⟩, ["invalid SRX: either before_break or after_break must be set"])] }

def data3 : SchemaSRX :=
  { cascade := "no", maps := [{ pattern := "en.*", name := "en" }],
    languagerules := [{ name := "en", rules := [] }] }

def srx3 : SRX :=
  { cascade := false, map := [{ regex := trueRegex, language := ⟨"en"⟩ }],
    rules := [(⟨"en"⟩, [])], errors := [(⟨"en"⟩, [])] }

/-- A schema whose map references a language that has no bucket. -/
def dataBad : SchemaSRX :=
  { cascade := "yes", maps := [{ pattern := "en", name := "fr" }], languagerules := [] }

/-- Witness for the character-boundary theorem at a concrete input. -/
theorem srx_char_boundary_safety_witness :
    isCharBoundary (['a', 'b'] : Text) 0 ∧ isCharBoundary (['a', 'b'] : Text) 1 :=
  srx_char_boundary_safety (Rules.mk [capRule [1] true]) (['a', 'b'] : Text) (0, 1) (by decide)

/-- Witness for the empty-leading-segment theorem at a concrete input. -/
theorem srx_only_first_segment_empty_witness :
    ((Rules.mk [capRule [0] true]).split_ranges (['a'] : Text)).head? = some (0, 0) :=
  (srx_only_first_segment_empty (Rules.mk [capRule [0] true]) (['a'] : Text)).2.mpr
    ⟨by decide, by decide⟩

/-- Witness for first-rule-wins at a concrete input: a break rule before a
no-break rule claiming the same offset. -/
theorem srx_first_rule_wins_witness :
    (computeMask ([] ++ capRule [0] true :: [] ++ capRule [0] false :: []) (['a'] : Text)).getD
        0 none = some (capRule [0] true).do_break ∧
    (computeMask ([] ++ capRule [0] true :: [] ++ capRule [0] false :: []) (['a'] : Text)).getD
        0 none ≠ some (capRule [0] false).do_break :=
  srx_first_rule_wins [] [] [] (capRule [0] true) (capRule [0] false) (['a'] : Text) 0
    (by decide) (by decide) (by decide) (by decide) (by decide)
    (by intro r h; exact absurd h (List.not_mem_nil r))

/-- Witness for candidate filtering at a concrete input: one in-range and
one out-of-range candidate. -/
theorem srx_candidate_filtering_witness :
    applyRule (utf8Len (['a', 'b'] : Text)) (capRule [1, 5] true).do_break
        ((capRule [1, 5] true).match_indices ['a', 'b']) [none, none]
      = applyAll (capRule [1, 5] true).do_break
        (((capRule [1, 5] true).match_indices ['a', 'b']).filter
          (fun j => decide (j < utf8Len (['a', 'b'] : Text)))) [none, none] :=
  srx_candidate_filtering (capRule [1, 5] true) (['a', 'b'] : Text) [none, none] (by decide)

/-- Witness for cascade resolution on a concretely constructed engine. -/
theorem srx_cascade_resolution_witness :
    List.Forall₂ (fun (m : SchemaLanguageMap) (entry : LanguageRegex) =>
        entry.language = ⟨m.name⟩ ∧ full_regex okCompile m.pattern = .ok entry.regex)
      data3.maps srx3.map ∧
    srx3.language_rules "en" = some ⟨
      if srx3.cascade then
        ((srx3.map.filter (fun item => item.regex.isMatch "en")).map
          (fun item => (alistGet srx3.rules item.language).getD [])).flatten
      else
        match srx3.map.find? (fun item => item.regex.isMatch "en") with
        | some item => (alistGet srx3.rules item.language).getD []
        | none => []⟩ :=
  srx_cascade_resolution okCompile data3 srx3 "en" rfl

/-- Witness for the amended unmatched-language-code claim at a non-empty
text. -/
theorem srx_unmatched_single_segment_witness :
    srxNone.language_rules "zz" = some ⟨[]⟩ ∧
    Rules.split ⟨[]⟩ (['a'] : Text) = [(['a'] : Text)] :=
  srx_unmatched_single_segment srxNone "zz" ['a']
    (by
      intro item h
      rcases List.mem_cons.mp h with rfl | h2
      · rfl
      · simp at h2)
    (by decide)

/-- Witness for diagnostics accounting on a concretely constructed engine:
two declared rules, one compiles, one fails. -/
theorem srx_diagnostics_accounting_witness :
    alistGet srxDiag.rules ⟨lrDiag.name⟩ = some (bucketOf okCompile lrDiag.rules) ∧
    alistGet srxDiag.errors ⟨lrDiag.name⟩ = some (failsOf okCompile lrDiag.rules) ∧
    (bucketOf okCompile lrDiag.rules).length + (failsOf okCompile lrDiag.rules).length
      = lrDiag.rules.length ∧
    (failsOf okCompile lrDiag.rules).length
      = (lrDiag.rules.filter (fun r => !(exceptOk (compiledOf okCompile r)))).length :=
  srx_diagnostics_accounting okCompile dataDiag srxDiag rfl (by decide) lrDiag (by decide)

/-- Witness for the empty-pattern-pair claim at concrete inputs. -/
theorem srx_empty_pattern_pair_local_witness :
    Rule.new okCompile none none true = .error (.SRXError emptyPairMsg) ∧
    (compileRules okCompile ⟨"en"⟩ ([] ++ (none, none, true) :: [(some "a", none, true)])
        [(⟨"en"⟩, [])]).1
      = (compileRules okCompile ⟨"en"⟩ ([] ++ [(some "a", none, true)]) [(⟨"en"⟩, [])]).1 ∧
    exceptOk (buildBuckets okCompile [lrDiag] [] (initErrors [lrDiag])) = true :=
  srx_empty_pattern_pair_local okCompile true ⟨"en"⟩ [] [(some "a", none, true)]
    [(⟨"en"⟩, [])] [lrDiag] [] (initErrors [lrDiag]) (by decide)

/-- Witness for resolution totality: a map entry naming a bucketless
language makes construction fail, and a successfully constructed engine
resolves every code. -/
theorem srx_resolution_totality_witness :
    exceptOk (tryFrom okCompile dataBad) = false ∧
    (srx3.language_rules "en").isSome = true := by
  constructor
  · exact (srx_resolution_totality okCompile dataBad srx3 ⟨"en", "fr"⟩ "en").1
      (by decide) (by intro lr h; exact absurd h (List.not_mem_nil lr))
  · exact (srx_resolution_totality okCompile data3 srx3 ⟨"en", "fr"⟩ "en").2 rfl

end Srx
